import Mathlib

/-!
Shallow embedding of the word-case transformation and fuzzy string-ranking
engine of `src/str/convert.rs` and `src/str/filter.rs` (plus the pieces of
`src/lib.rs` and `src/extensions/iter.rs` they use).

Rust strings are modelled as `List Char`; `str::len()` (a byte count) is
modelled by summing `Char.utf8Size`.  Rust byte-slicing panics on non
char-boundary indices, so the operations that slice `word[..1]` are
`Option`-valued (`none` models a panic).  `f64` values produced by the
metrics are modelled as `Option ℚ` where `none` models `NaN` (the only NaN
the code can produce is `0.0 / 0.0`); division is otherwise treated as
exact rational division.
-/

namespace RustCommon

/-- Model of `char::to_ascii_lowercase`: lowercases ASCII `A`-`Z` only. -/
def toAsciiLower (c : Char) : Char :=
  if 'A' ≤ c ∧ c ≤ 'Z' then Char.ofNat (c.toNat + 32) else c

/-- Model of `char::eq_ignore_ascii_case`. -/
def eqIgnoreAsciiCase (a b : Char) : Bool :=
  toAsciiLower a == toAsciiLower b

/-- Model of `crate::str::compare_char` (src/lib.rs):
`(ignore_case && a.eq_ignore_ascii_case(&b)) || a == b`. -/
def compare_char (a b : Char) (ignoreCase : Bool) : Bool :=
  (ignoreCase && eqIgnoreAsciiCase a b) || a == b

theorem beqSymm {α : Type} [BEq α] [LawfulBEq α] (a b : α) : (a == b) = (b == a) := by
  by_cases h : a = b
  · subst h; rfl
  · have e1 : (a == b) = false := beq_eq_false_iff_ne.mpr h
    have e2 : (b == a) = false := beq_eq_false_iff_ne.mpr (Ne.symm h)
    rw [e1, e2]

theorem compare_char_symm (a b : Char) (ic : Bool) :
    compare_char a b ic = compare_char b a ic := by
  simp only [compare_char, eqIgnoreAsciiCase, beqSymm (toAsciiLower a), beqSymm a]

/-- Byte length of a Rust `&str`, i.e. `str::len()`. -/
def byteLen (s : List Char) : Nat :=
  (s.map Char.utf8Size).sum

theorem byteLen_nil : byteLen [] = 0 := rfl

theorem byteLen_eq_zero_iff (s : List Char) : byteLen s = 0 ↔ s = [] := by
  cases s with
  | nil => simp [byteLen]
  | cons c cs =>
    simp only [byteLen, List.map_cons, List.sum_cons]
    constructor
    · intro h
      have h1 : 1 ≤ c.utf8Size := by
        have := Char.utf8Size_pos c
        omega
      omega
    · intro h
      exact absurd h (by simp)

namespace Levenshtein

/-- Model of `Levenshtein::recursive_distance` (src/str/filter.rs). -/
def recursive_distance (ic : Bool) : List Char → List Char → Nat
  | [], b => b.length
  | a, [] => a.length
  | x :: a, y :: b =>
    if compare_char x y ic then recursive_distance ic a b
    else
      let s1 := recursive_distance ic a (y :: b)
      let s2 := recursive_distance ic (x :: a) b
      let s3 := recursive_distance ic a b
      1 + min (min s1 s2) s3
termination_by a b => a.length + b.length

/-- One cell of the dynamic-programming row: models the body of the inner
loop of `Levenshtein::dynamic_distance`.  `d` is `v0[j]`, `r` is `v0[j+1]`,
`c` is `v1[j]` and `eq` is `compare_char(s_char, t_char, ignore_case)`.
`v0[j].overflowing_sub(eq as usize)` overflows exactly when `eq` holds and
`v0[j] = 0`, in which case the code stores `0`. -/
def cellVal (eq : Bool) (d r c : Nat) : Nat :=
  if eq ∧ d = 0 then 0
  else
    let substitutionCost := d - (if eq then 1 else 0)
    min (min substitutionCost c) r + 1

/-- The inner loop of `dynamic_distance`: walks the remaining characters of
`t` together with the tail of the previous row `v0`, carrying the previous
freshly-computed cell `cur` (`v1[j]`), and returns the cells
`v1[j+1], …, v1[n]`.  In the source `v0` always has one more element than
the remaining `t`, so the `headD 0` default (the value of `v0[j+1]`) is
never taken on reachable inputs. -/
def rowAux (ic : Bool) (sc : Char) : List Char → List Nat → Nat → List Nat
  | [], _, _ => []
  | tc :: t', v0, cur =>
    match v0 with
    | [] => []
    | d :: rest =>
      let c := cellVal (compare_char sc tc ic) d (rest.headD 0) cur
      c :: rowAux ic sc t' rest c

/-- One outer-loop iteration of `dynamic_distance`: computes the full new
row `v1` for source character `sc` with row index `i` (`v1[0] = i`). -/
def newRow (ic : Bool) (sc : Char) (t : List Char) (v0 : List Nat) (i : Nat) : List Nat :=
  i :: rowAux ic sc t v0 i

/-- The outer loop of `dynamic_distance`: folds over the characters of `s`
paired with indices `1, 2, …` (the source's `s.into_iter().lzip(1..)`). -/
def dynLoop (ic : Bool) : List Char → Nat → List Char → List Nat → List Nat
  | [], _, _, v0 => v0
  | sc :: s', i, t, v0 => dynLoop ic s' (i + 1) t (newRow ic sc t v0 i)

/-- Model of `Levenshtein::dynamic_distance` (src/str/filter.rs): the row
starts as `(0..=n).collect()` and the result is `v0[n]`. -/
def dynamic_distance (ic : Bool) (s t : List Char) : Nat :=
  (dynLoop ic s 1 t (List.range (t.length + 1))).getD t.length 0

/-- Model of `<Levenshtein as StrMetric>::distance`: the raw distance over
`char`s, normalized by the larger *byte* length.  `none` models the `NaN`
produced by `0.0 / 0.0` when both strings are empty. -/
def distance (ic : Bool) (option input : List Char) : Option ℚ :=
  let levDistance := dynamic_distance ic option input
  let m := max (byteLen option) (byteLen input)
  if m = 0 then none else some ((levDistance : ℚ) / (m : ℚ))

/-- Cost of substituting `x` by `y` under the comparison used by the code. -/
def cost (ic : Bool) (x y : Char) : Nat :=
  if compare_char x y ic then 0 else 1

theorem cost_le_one (ic : Bool) (x y : Char) : cost ic x y ≤ 1 := by
  unfold cost
  split <;> omega

theorem cost_symm (ic : Bool) (x y : Char) : cost ic x y = cost ic y x := by
  unfold cost
  rw [compare_char_symm]

theorem cost_self (ic : Bool) (x : Char) : cost ic x x = 0 := by
  unfold cost
  simp [compare_char]

/-- The textbook Levenshtein recurrence (always taking the three-way
minimum), used as the common reference point for both implementations. -/
def lev (ic : Bool) : List Char → List Char → Nat
  | [], b => b.length
  | a, [] => a.length
  | x :: a, y :: b =>
    min (lev ic a b + cost ic x y) (min (lev ic (x :: a) b + 1) (lev ic a (y :: b) + 1))
termination_by a b => a.length + b.length

theorem lev_nil_left (ic : Bool) (b : List Char) : lev ic [] b = b.length := by
  cases b <;> simp [lev]

theorem lev_nil_right (ic : Bool) (a : List Char) : lev ic a [] = a.length := by
  cases a <;> simp [lev]

theorem lev_cons_cons (ic : Bool) (x y : Char) (a b : List Char) :
    lev ic (x :: a) (y :: b) =
      min (lev ic a b + cost ic x y) (min (lev ic (x :: a) b + 1) (lev ic a (y :: b) + 1)) := by
  simp [lev]

/-- Prepending a character to the second string raises `lev` by at most 1. -/
theorem lev_cons_right_le (ic : Bool) (a b : List Char) (y : Char) :
    lev ic a (y :: b) ≤ lev ic a b + 1 := by
  cases a with
  | nil => simp [lev_nil_left]
  | cons x a' =>
    rw [lev_cons_cons]
    have := min_le_right (lev ic a' b + cost ic x y)
      (min (lev ic (x :: a') b + 1) (lev ic a' (y :: b) + 1))
    omega

/-- Prepending a character to the first string raises `lev` by at most 1. -/
theorem lev_cons_left_le (ic : Bool) (a b : List Char) (x : Char) :
    lev ic (x :: a) b ≤ lev ic a b + 1 := by
  cases b with
  | nil => simp [lev_nil_right]
  | cons y b' =>
    rw [lev_cons_cons]
    have := min_le_right (lev ic a b' + cost ic x y)
      (min (lev ic (x :: a) b' + 1) (lev ic a (y :: b') + 1))
    omega

/-- Dropping the first character of the first string lowers `lev` by at
most 1. -/
theorem le_lev_cons_left (ic : Bool) (a b : List Char) (x : Char) :
    lev ic a b ≤ lev ic (x :: a) b + 1 := by
  induction b generalizing a with
  | nil => simp [lev_nil_right]; omega
  | cons y b' ih =>
    rw [lev_cons_cons]
    have h1 : lev ic a (y :: b') ≤ lev ic a b' + 1 := lev_cons_right_le ic a b' y
    have h2 : lev ic a b' ≤ lev ic (x :: a) b' + 1 := ih a
    omega

/-- Dropping the first character of the second string lowers `lev` by at
most 1. -/
theorem le_lev_cons_right (ic : Bool) (a b : List Char) (y : Char) :
    lev ic a b ≤ lev ic a (y :: b) + 1 := by
  induction a generalizing b with
  | nil => simp [lev_nil_left]; omega
  | cons x a' ih =>
    rw [lev_cons_cons]
    have h1 : lev ic (x :: a') b ≤ lev ic a' b + 1 := lev_cons_left_le ic a' b x
    have h2 : lev ic a' b ≤ lev ic a' (y :: b) + 1 := ih b
    omega

/-- `recursive_distance` (which skips the three-way minimum when the head
characters compare equal) agrees with the full recurrence `lev`. -/
theorem recursive_distance_eq_lev (ic : Bool) :
    ∀ (n : Nat) (a b : List Char), a.length + b.length ≤ n →
      recursive_distance ic a b = lev ic a b := by
  intro n
  induction n with
  | zero =>
    intro a b h
    have ha : a = [] := by cases a <;> simp_all
    subst ha
    simp [recursive_distance, lev_nil_left]
  | succ n ih =>
    intro a b h
    cases a with
    | nil => simp [recursive_distance, lev_nil_left]
    | cons x a' =>
      cases b with
      | nil => simp [recursive_distance, lev_nil_right]
      | cons y b' =>
        rw [lev_cons_cons]
        simp only [recursive_distance]
        have la : a'.length + b'.length ≤ n := by
          simp at h
          omega
        have h1 := ih a' b' (by omega)
        have h2 := ih (x :: a') b' (by simp; simp at h; omega)
        have h3 := ih a' (y :: b') (by simp; simp at h; omega)
        by_cases hc : compare_char x y ic
        · rw [if_pos hc]
          have hcost : cost ic x y = 0 := by simp [cost, hc]
          have hle1 : lev ic a' b' ≤ lev ic (x :: a') b' + 1 := le_lev_cons_left ic a' b' x
          have hle2 : lev ic a' b' ≤ lev ic a' (y :: b') + 1 := le_lev_cons_right ic a' b' y
          rw [h1]
          omega
        · rw [if_neg hc]
          have hcost : cost ic x y = 1 := by simp [cost, hc]
          rw [h1, h2, h3]
          omega

/-- The `snoc` recurrence: `lev` also satisfies the Levenshtein recurrence
peeling the *last* character of each string. -/
theorem lev_snoc (ic : Bool) :
    ∀ (n : Nat) (a b : List Char) (x y : Char), a.length + b.length ≤ n →
      lev ic (a ++ [x]) (b ++ [y]) =
        min (lev ic a b + cost ic x y)
          (min (lev ic (a ++ [x]) b + 1) (lev ic a (b ++ [y]) + 1)) := by
  intro n
  induction n with
  | zero =>
    intro a b x y h
    have ha : a = [] := by cases a <;> simp_all
    have hb : b = [] := by cases b <;> simp_all
    subst ha; subst hb
    simpa using lev_cons_cons ic x y [] []
  | succ n ih =>
    intro a b x y h
    cases a with
    | nil =>
      cases b with
      | nil => simpa using lev_cons_cons ic x y [] []
      | cons yb b' =>
        simp only [List.nil_append, List.cons_append]
        have e1 := lev_cons_cons ic x yb [] (b' ++ [y])
        have e2 : lev ic ([] ++ [x]) (b' ++ [y]) =
            min (lev ic [] b' + cost ic x y)
              (min (lev ic ([] ++ [x]) b' + 1) (lev ic [] (b' ++ [y]) + 1)) :=
          ih [] b' x y (by simp at h ⊢; omega)
        simp only [List.nil_append] at e2
        have e3 := lev_cons_cons ic x yb [] b'
        have n1 : lev ic [] (b' ++ [y]) = b'.length + 1 := by
          simp [lev_nil_left]
        have n2 : lev ic [] (yb :: (b' ++ [y])) = b'.length + 2 := by
          simp [lev_nil_left]
        have n3 : lev ic [] (yb :: b') = b'.length + 1 := by
          simp [lev_nil_left]
        have n4 : lev ic [] b' = b'.length := lev_nil_left ic b'
        have c1 := cost_le_one ic x y
        have c2 := cost_le_one ic x yb
        omega
    | cons xa a' =>
      cases b with
      | nil =>
        simp only [List.cons_append, List.nil_append]
        have e1 := lev_cons_cons ic xa y (a' ++ [x]) []
        have e2 : lev ic (a' ++ [x]) ([] ++ [y]) =
            min (lev ic a' [] + cost ic x y)
              (min (lev ic (a' ++ [x]) [] + 1) (lev ic a' ([] ++ [y]) + 1)) :=
          ih a' [] x y (by simp at h ⊢; omega)
        simp only [List.nil_append] at e2
        have e3 := lev_cons_cons ic xa y a' []
        have n1 : lev ic (a' ++ [x]) [] = a'.length + 1 := by
          simp [lev_nil_right]
        have n2 : lev ic (xa :: (a' ++ [x])) [] = a'.length + 2 := by
          simp [lev_nil_right]
        have n3 : lev ic (xa :: a') [] = a'.length + 1 := by
          simp [lev_nil_right]
        have n4 : lev ic a' [] = a'.length := lev_nil_right ic a'
        have c1 := cost_le_one ic x y
        have c2 := cost_le_one ic xa y
        omega
      | cons yb b' =>
        simp only [List.cons_append]
        simp only [List.length_cons] at h
        have e1 := lev_cons_cons ic xa yb (a' ++ [x]) (b' ++ [y])
        have e2 : lev ic (a' ++ [x]) (b' ++ [y]) =
            min (lev ic a' b' + cost ic x y)
              (min (lev ic (a' ++ [x]) b' + 1) (lev ic a' (b' ++ [y]) + 1)) :=
          ih a' b' x y (by omega)
        have e3 : lev ic ((xa :: a') ++ [x]) (b' ++ [y]) =
            min (lev ic (xa :: a') b' + cost ic x y)
              (min (lev ic ((xa :: a') ++ [x]) b' + 1) (lev ic (xa :: a') (b' ++ [y]) + 1)) :=
          ih (xa :: a') b' x y (by simp only [List.length_cons]; omega)
        simp only [List.cons_append] at e3
        have e4 : lev ic (a' ++ [x]) ((yb :: b') ++ [y]) =
            min (lev ic a' (yb :: b') + cost ic x y)
              (min (lev ic (a' ++ [x]) (yb :: b') + 1) (lev ic a' ((yb :: b') ++ [y]) + 1)) :=
          ih a' (yb :: b') x y (by simp only [List.length_cons]; omega)
        simp only [List.cons_append] at e4
        have e5 := lev_cons_cons ic xa yb a' b'
        have e6 := lev_cons_cons ic xa yb (a' ++ [x]) b'
        have e7 := lev_cons_cons ic xa yb a' (b' ++ [y])
        rw [e1, e2, e3, e4, e5, e6, e7]
        generalize lev ic a' b' = T4
        generalize lev ic (a' ++ [x]) b' = T5
        generalize lev ic a' (b' ++ [y]) = T6
        generalize lev ic (xa :: a') b' = T7
        generalize lev ic (xa :: a') (b' ++ [y]) = T8
        generalize lev ic a' (yb :: b') = T9
        generalize lev ic (a' ++ [x]) (yb :: b') = T10
        generalize lev ic a' (yb :: (b' ++ [y])) = T11
        generalize lev ic (xa :: (a' ++ [x])) b' = T14
        generalize cost ic x y = C1
        generalize cost ic xa yb = C2
        simp only [← min_add_add_right]
        simp only [min_comm, min_left_comm, min_assoc, add_comm, add_left_comm, add_assoc]

/-- `lev` is symmetric in its two string arguments. -/
theorem lev_comm_aux (ic : Bool) :
    ∀ (n : Nat) (a b : List Char), a.length + b.length ≤ n →
      lev ic a b = lev ic b a := by
  intro n
  induction n with
  | zero =>
    intro a b h
    have ha : a = [] := by cases a <;> simp_all
    have hb : b = [] := by cases b <;> simp_all
    subst ha; subst hb; rfl
  | succ n ih =>
    intro a b h
    cases a with
    | nil => simp [lev_nil_left, lev_nil_right]
    | cons x a' =>
      cases b with
      | nil => simp [lev_nil_left, lev_nil_right]
      | cons y b' =>
        simp only [List.length_cons] at h
        have e1 := lev_cons_cons ic x y a' b'
        have e2 := lev_cons_cons ic y x b' a'
        have h1 : lev ic a' b' = lev ic b' a' := ih a' b' (by omega)
        have h2 : lev ic (x :: a') b' = lev ic b' (x :: a') := ih (x :: a') b' (by simp; omega)
        have h3 : lev ic a' (y :: b') = lev ic (y :: b') a' := ih a' (y :: b') (by simp; omega)
        have hc : cost ic x y = cost ic y x := cost_symm ic x y
        omega

theorem lev_comm (ic : Bool) (a b : List Char) : lev ic a b = lev ic b a :=
  lev_comm_aux ic (a.length + b.length) a b le_rfl

/-- `lev` is invariant under reversing both strings. -/
theorem lev_reverse_aux (ic : Bool) :
    ∀ (n : Nat) (a b : List Char), a.length + b.length ≤ n →
      lev ic a.reverse b.reverse = lev ic a b := by
  intro n
  induction n with
  | zero =>
    intro a b h
    have ha : a = [] := by cases a <;> simp_all
    have hb : b = [] := by cases b <;> simp_all
    subst ha; subst hb; rfl
  | succ n ih =>
    intro a b h
    cases a with
    | nil => simp [lev_nil_left]
    | cons x a' =>
      cases b with
      | nil => simp [lev_nil_right]
      | cons y b' =>
        simp only [List.length_cons] at h
        rw [List.reverse_cons, List.reverse_cons]
        have e1 := lev_snoc ic (a'.reverse.length + b'.reverse.length) a'.reverse b'.reverse x y
          le_rfl
        have h1 : lev ic a'.reverse b'.reverse = lev ic a' b' := ih a' b' (by omega)
        have h2 : lev ic (a'.reverse ++ [x]) b'.reverse = lev ic (x :: a') b' := by
          rw [← List.reverse_cons]
          exact ih (x :: a') b' (by simp; omega)
        have h3 : lev ic a'.reverse (b'.reverse ++ [y]) = lev ic a' (y :: b') := by
          rw [← List.reverse_cons]
          exact ih a' (y :: b') (by simp; omega)
        have e2 := lev_cons_cons ic x y a' b'
        omega

theorem lev_reverse (ic : Bool) (a b : List Char) :
    lev ic a.reverse b.reverse = lev ic a b :=
  lev_reverse_aux ic (a.length + b.length) a b le_rfl

/-- Specification of a DP row: the distances from the (reversed) consumed
part `a` of the first string to every extension of the (reversed) consumed
part `p` of the second string by characters of `t`. -/
def specRow (ic : Bool) (a p : List Char) : List Char → List Nat
  | [] => [lev ic a p]
  | tc :: t' => lev ic a p :: specRow ic a (tc :: p) t'

theorem specRow_head_cons (ic : Bool) (a p : List Char) (t : List Char) :
    specRow ic a p t = lev ic a p :: (specRow ic a p t).tail := by
  cases t <;> rfl

theorem specRow_headD (ic : Bool) (a p : List Char) (t : List Char) :
    (specRow ic a p t).headD 0 = lev ic a p := by
  cases t <;> rfl

theorem cellVal_eq_min (eq : Bool) (d r c : Nat) :
    cellVal eq d r c = min (d + (if eq then 0 else 1)) (min (r + 1) (c + 1)) := by
  cases eq
  · simp only [cellVal, Bool.false_eq_true, false_and, if_false, if_neg]
    simp
    omega
  · by_cases hd : d = 0
    · simp [cellVal, hd]
    · simp [cellVal, hd]
      omega

/-- The inner loop maintains the row invariant: starting from the previous
row for `a` and the current cell for `sc :: a`, it produces the tail of the
row for `sc :: a`. -/
theorem rowAux_spec (ic : Bool) (sc : Char) (a : List Char) :
    ∀ (t p : List Char),
      rowAux ic sc t (specRow ic a p t) (lev ic (sc :: a) p) =
        (specRow ic (sc :: a) p t).tail := by
  intro t
  induction t with
  | nil => intro p; rfl
  | cons tc t' ih =>
    intro p
    show rowAux ic sc (tc :: t') (lev ic a p :: specRow ic a (tc :: p) t')
        (lev ic (sc :: a) p) = (specRow ic (sc :: a) p (tc :: t')).tail
    have hcell : cellVal (compare_char sc tc ic) (lev ic a p)
        ((specRow ic a (tc :: p) t').headD 0) (lev ic (sc :: a) p) =
        lev ic (sc :: a) (tc :: p) := by
      rw [specRow_headD, cellVal_eq_min, lev_cons_cons]
      unfold cost compare_char
      rcases h : (ic && eqIgnoreAsciiCase sc tc || sc == tc) <;> simp [h] <;> omega
    simp only [rowAux, hcell]
    rw [ih (tc :: p)]
    show lev ic (sc :: a) (tc :: p) :: (specRow ic (sc :: a) (tc :: p) t').tail =
      specRow ic (sc :: a) (tc :: p) t'
    exact (specRow_head_cons ic (sc :: a) (tc :: p) t').symm

/-- The outer loop maintains the row invariant. -/
theorem dynLoop_spec (ic : Bool) (t : List Char) :
    ∀ (s' a : List Char),
      dynLoop ic s' (a.length + 1) t (specRow ic a [] t) =
        specRow ic (s'.reverse ++ a) [] t := by
  intro s'
  induction s' with
  | nil => intro a; simp [dynLoop]
  | cons sc s'' ih =>
    intro a
    show dynLoop ic s'' (a.length + 1 + 1) t
        (newRow ic sc t (specRow ic a [] t) (a.length + 1)) =
      specRow ic ((sc :: s'').reverse ++ a) [] t
    have hnew : newRow ic sc t (specRow ic a [] t) (a.length + 1) =
        specRow ic (sc :: a) [] t := by
      unfold newRow
      have hi : a.length + 1 = lev ic (sc :: a) [] := by
        rw [lev_nil_right]
        simp
      rw [hi, rowAux_spec ic sc a t []]
      exact (specRow_head_cons ic (sc :: a) [] t).symm
    rw [hnew]
    have := ih (sc :: a)
    simp only [List.length_cons] at this
    rw [this]
    simp

/-- The initial row `(0..=n).collect()` is the spec row for the empty
consumed part of the first string. -/
theorem specRow_nil (ic : Bool) :
    ∀ (t p : List Char), specRow ic [] p t = List.range' p.length (t.length + 1) := by
  intro t
  induction t with
  | nil =>
    intro p
    simp [specRow, lev_nil_left, List.range']
  | cons tc t' ih =>
    intro p
    show lev ic [] p :: specRow ic [] (tc :: p) t' = List.range' p.length (t'.length + 1 + 1)
    rw [lev_nil_left, ih (tc :: p)]
    simp [List.range']

theorem specRow_getD (ic : Bool) (a : List Char) :
    ∀ (t p : List Char), (specRow ic a p t).getD t.length 0 = lev ic a (t.reverse ++ p) := by
  intro t
  induction t with
  | nil => intro p; rfl
  | cons tc t' ih =>
    intro p
    show (lev ic a p :: specRow ic a (tc :: p) t').getD (t'.length + 1) 0 =
      lev ic a ((tc :: t').reverse ++ p)
    simp only [List.getD_cons_succ]
    rw [ih (tc :: p)]
    simp

/-- `dynamic_distance` computes `lev` on the reversed strings. -/
theorem dynamic_distance_eq_lev_reverse (ic : Bool) (s t : List Char) :
    dynamic_distance ic s t = lev ic s.reverse t.reverse := by
  unfold dynamic_distance
  have h0 : List.range (t.length + 1) = specRow ic [] [] t := by
    rw [specRow_nil ic t []]
    simp [List.range_eq_range']
  rw [h0]
  have h1 := dynLoop_spec ic t s []
  simp only [List.length_nil, List.append_nil] at h1
  rw [show (0 + 1 : Nat) = 1 from rfl] at h1
  rw [h1]
  have h2 := specRow_getD ic s.reverse t []
  simp only [List.append_nil] at h2
  exact h2

/-- The two Levenshtein implementations agree. -/
theorem dynamic_distance_eq_recursive (ic : Bool) (s t : List Char) :
    dynamic_distance ic s t = recursive_distance ic s t := by
  rw [dynamic_distance_eq_lev_reverse, lev_reverse,
    recursive_distance_eq_lev ic (s.length + t.length) s t le_rfl]

/-- `dynamic_distance` is symmetric. -/
theorem dynamic_distance_comm (ic : Bool) (s t : List Char) :
    dynamic_distance ic s t = dynamic_distance ic t s := by
  rw [dynamic_distance_eq_lev_reverse, dynamic_distance_eq_lev_reverse, lev_comm]

end Levenshtein

/-- Abstract interface for the Unicode case operations of the Rust standard
library used by `src/str/convert.rs` (`char::is_uppercase`,
`char::is_lowercase`, `str::to_lowercase`, `str::to_uppercase`).  The
theorems about the conversion engine are proved for an arbitrary
implementation, so they hold in particular for the real Unicode tables;
concrete evaluations instantiate it with the ASCII implementation below,
which agrees with Unicode on the ASCII-only inputs used there. -/
structure CharImpl where
  isUppercase : Char → Bool
  isLowercase : Char → Bool
  strToLowercase : List Char → List Char
  strToUppercase : List Char → List Char

/-- The ASCII instantiation of `CharImpl` (agrees with the Unicode
operations on ASCII strings). -/
def asciiImpl : CharImpl where
  isUppercase c := 'A' ≤ c ∧ c ≤ 'Z'
  isLowercase c := 'a' ≤ c ∧ c ≤ 'z'
  strToLowercase s := s.map toAsciiLower
  strToUppercase s := s.map fun c => if 'a' ≤ c ∧ c ≤ 'z' then Char.ofNat (c.toNat - 32) else c

/-- Model of `std::borrow::Cow<str>`: a fragment is either a view into
existing text or a freshly allocated buffer. -/
inductive Cow where
  | borrowed (s : List Char)
  | owned (s : List Char)
deriving DecidableEq, Repr

/-- The string value held by a `Cow`, regardless of ownership. -/
def Cow.val : Cow → List Char
  | .borrowed s => s
  | .owned s => s

/-- Model of `WordCase` (src/str/convert.rs). -/
inductive WordCase where
  | Lower
  | Upper
  | Capitalized
deriving DecidableEq, Repr

namespace WordCase

/-- Model of `WordCase::word_not_in_case`.  For `Capitalized` the source
slices `word[..1]` and `word[1..]` at *byte* index 1, which panics
(`none`) when the first character is longer than one UTF-8 byte. -/
def word_not_in_case (U : CharImpl) : WordCase → List Char → Option Bool
  | .Lower, w => some (w.any U.isUppercase)
  | .Upper, w => some (w.any U.isLowercase)
  | .Capitalized, w =>
    match w with
    | [] => some false
    | f :: rest =>
      if f.utf8Size = 1 then some (U.isLowercase f || rest.any U.isUppercase)
      else none

/-- Model of `WordCase::convert`.  An empty word is returned untouched;
any other word is rebuilt into an owned buffer.  The `Capitalized` branch
slices `word[..1]` / `word[1..]` at byte index 1 and therefore panics
(`none`) when the first character is longer than one UTF-8 byte. -/
def convert (U : CharImpl) (c : WordCase) (word : Cow) : Option Cow :=
  if word.val = [] then some word
  else
    match c with
    | .Lower => some (.owned (U.strToLowercase word.val))
    | .Upper => some (.owned (U.strToUppercase word.val))
    | .Capitalized =>
      match word.val with
      | [] => some word
      | f :: rest =>
        if f.utf8Size = 1 then
          some (.owned (U.strToUppercase [f] ++ U.strToLowercase rest))
        else none

/-- Model of `WordCase::conver_if_needed`: converts `word` and raises the
changed flag only when a target case is given and the word is not already
in it. -/
def conver_if_needed (U : CharImpl) (c : Option WordCase) (word : Cow)
    (hasChanged : Bool) : Option (Cow × Bool) :=
  match c with
  | some c => do
    let notIn ← word_not_in_case U c word.val
    if notIn then do
      let w' ← convert U c word
      pure (w', true)
    else
      pure (word, hasChanged)
  | none => pure (word, hasChanged)

end WordCase

/-- Model of `Case` (src/str/convert.rs). -/
inductive Case where
  | Camel
  | Other (case : Option WordCase) (seperator : Option Char)
deriving DecidableEq, Repr

namespace Case

/-- `Case::Pascal`. -/
def Pascal : Case := .Other (some .Capitalized) none
/-- `Case::Snake`. -/
def Snake : Case := .Other (some .Lower) (some '_')
/-- `Case::ScreamingSnake`. -/
def ScreamingSnake : Case := .Other (some .Upper) (some '_')
/-- `Case::Kebab`. -/
def Kebab : Case := .Other (some .Lower) (some '-')
/-- `Case::Upper` (uppercase words joined by spaces). -/
def UpperSpace : Case := .Other (some .Upper) (some ' ')
/-- `Case::Lower` (lowercase words joined by spaces). -/
def LowerSpace : Case := .Other (some .Lower) (some ' ')

/-- Model of `Case::seperator`. -/
def seperator : Case → Option Char
  | .Camel => none
  | .Other _ sep => sep

end Case

/-- Model of `extensions::iter::State` (src/extensions/iter.rs). -/
inductive IterState (T : Type) where
  | Start (a : T)
  | Middle (a b : T)
  | End (a : T)
deriving DecidableEq, Repr

/-- Model of the `open_border_pairs` iterator
(`OpenBorderWindowIterator`, src/extensions/iter.rs): for items
`x1, …, xk` it yields `Start x1, Middle x1 x2, …, Middle x(k-1) xk, End xk`,
and nothing for an empty iterator. -/
def openBorderPairs {T : Type} : List T → List (IterState T)
  | [] => []
  | x :: xs => .Start x :: openBorderPairsGo x xs
where
  openBorderPairsGo {T : Type} : T → List T → List (IterState T)
    | x, [] => [.End x]
    | x, y :: ys => .Middle x y :: openBorderPairsGo y ys

/-- The character positions at which `data.match_indices(char::is_uppercase)`
matches.  The source works with byte offsets; since every match offset is a
character boundary, character indices are an exact model of the slicing
below. -/
def matchIndicesUpper (U : CharImpl) (data : List Char) : List Nat :=
  (List.range data.length).filter fun i => U.isUppercase (data.getD i ' ')

namespace Case

/-- Model of `Case::split_seperator`: Rust `str::split` on one character
(preserves empty fragments; the empty string yields one empty fragment). -/
def split_seperator (data : List Char) (sep : Char) : List (List Char) :=
  match data with
  | [] => [[]]
  | x :: xs =>
    match split_seperator xs sep with
    | [] => [[]]
    | w :: ws => if x = sep then [] :: w :: ws else (x :: w) :: ws

/-- Model of `Case::split_capitalized`: slices `data` between consecutive
uppercase positions, keeping leading text only when non-empty. -/
def split_capitalized (U : CharImpl) (data : List Char) : List (List Char) :=
  (openBorderPairs (matchIndicesUpper U data)).filterMap fun
    | .Start e => if e ≠ 0 then some (data.take e) else none
    | .Middle s e => some ((data.take e).drop s)
    | .End s => some (data.drop s)

/-- Model of `Case::split`. -/
def split (U : CharImpl) (sep : Option Char) (data : List Char) : List (List Char) :=
  match sep with
  | some s => split_seperator data s
  | none => split_capitalized U data

/-- Helper threading the changed flag through a list of (word, target
case) pairs, as the iterator chains in `Case::convert` do. -/
def convertTagged (U : CharImpl) : List (Cow × Option WordCase) → Bool →
    Option (Bool × List Cow)
  | [], flag => some (flag, [])
  | (w, c) :: rest, flag => do
    let (w', flag') ← WordCase.conver_if_needed U c w flag
    let (flagF, ws) ← convertTagged U rest flag'
    pure (flagF, w' :: ws)

/-- Model of `Case::convert`: for `Camel` the first word is forced to
`Lower` and the rest to `Capitalized`; for `Other` every word is converted
with the stored word case (no-op when it is `None`). -/
def convert (U : CharImpl) (c : Case) (data : List Cow) : Option (Bool × List Cow) :=
  match c with
  | .Camel =>
    match data with
    | [] => convertTagged U [] false
    | w :: ws =>
      convertTagged U ((w, some .Lower) :: ws.map fun it => (it, some .Capitalized)) false
  | .Other wc _ => convertTagged U (data.map fun it => (it, wc)) false

end Case

/-- Model of `CapitalizedString` (src/str/convert.rs). -/
structure CapitalizedString where
  original_data : Option (List Char)
  words : List Cow
  case : Case
deriving DecidableEq, Repr

namespace CapitalizedString

/-- Model of `CapitalizedString::from_words_unchecked`. -/
def from_words_unchecked (orig : Option (List Char)) (words : List Cow)
    (case : Case) : CapitalizedString :=
  { original_data := orig, words := words, case := case }

/-- Model of `CapitalizedString::new`.  The `contains_lower` /
`contains_upper` flags are initialized from the first character and then
OR-ed over every character of `data` (with an early break once both are
set), so their final values are exactly `data.any is_lowercase` /
`data.any is_uppercase`. -/
def new (U : CharImpl) (data : List Char) (sep : Option Char) : CapitalizedString :=
  let case : Case :=
    match sep with
    | some s => .Other none (some s)
    | none =>
      match data with
      | [] => Case.LowerSpace
      | first :: _ =>
        let isFirstUpper := U.isUppercase first
        let containsLower := data.any U.isLowercase
        let containsUpper := data.any U.isUppercase
        match isFirstUpper, containsLower, containsUpper with
        | _, _, false => Case.LowerSpace
        | _, false, true => Case.UpperSpace
        | true, true, true => Case.Pascal
        | false, true, true => Case.Camel
  let splitWords := Case.split U case.seperator data
  from_words_unchecked (some data) (splitWords.map .borrowed) case

/-- Model of `CapitalizedString::change_case`.  `std::mem::take(&mut
self.words)` replaces `self.words` with the empty vector *before* the
invalidation check, so the `self.words.len() > 1` condition reads the
emptied vector (`takenWords`), not the real word list. -/
def change_case (U : CharImpl) (s : CapitalizedString) (case : Case) :
    Option CapitalizedString :=
  if s.case = case then some s
  else
    let data := s.words
    let takenWords : List Cow := []
    match Case.convert U case data with
    | none => none
    | some (changed, data') =>
      let origData :=
        if changed ∨ (takenWords.length > 1 ∧ s.case.seperator ≠ case.seperator)
        then none else s.original_data
      some { original_data := origData, words := data', case := case }

/-- The current words joined with the separator implied by the current
case (empty separator when there is none), as built by the
`map_or_else` branch of `Cow::from`. -/
def joined_words (s : CapitalizedString) : List Char :=
  let sepStr : List Char :=
    match s.case.seperator with
    | some c => [c]
    | none => []
  List.intercalate sepStr (s.words.map Cow.val)

/-- Model of `<&CapitalizedString as Into<Cow>>::from`: the original text
verbatim when still present, otherwise the words joined with the current
separator. -/
def cowFrom (s : CapitalizedString) : Cow :=
  match s.original_data with
  | some d => .borrowed d
  | none => .owned (joined_words s)

/-- Model of `CapitalizedString::to_string` (via `Cow::from`). -/
def to_string (s : CapitalizedString) : List Char :=
  (cowFrom s).val

end CapitalizedString

/-- Model of the `MixedSeperators` error, carrying the set of distinct
delimiter characters found (the Rust `HashSet<char>`). -/
structure MixedSeperators where
  found : Finset Char
deriving DecidableEq

/-- The recognized delimiter characters of `TryFrom<&str>`. -/
def DELIMITERS : List Char := [' ', '-', '_']

/-- Model of `<CapitalizedString as TryFrom<&str>>::try_from`: collect the
set of distinct delimiter characters occurring in `value`; with zero
delegate to `new` without separator, with exactly one delegate to `new`
with it, otherwise fail with `MixedSeperators`. -/
def try_from (U : CharImpl) (value : List Char) :
    Except MixedSeperators CapitalizedString :=
  let candidates := (value.filter fun c => DELIMITERS.contains c).dedup
  match candidates with
  | [] => .ok (CapitalizedString.new U value none)
  | [c] => .ok (CapitalizedString.new U value (some c))
  | _ => .error ⟨candidates.toFinset⟩

instance exceptDecEq {ε α : Type} [DecidableEq ε] [DecidableEq α] :
    DecidableEq (Except ε α) := fun x y =>
  match x, y with
  | .ok a, .ok b =>
    if h : a = b then .isTrue (congrArg Except.ok h)
    else .isFalse fun he => h (Except.ok.inj he)
  | .error a, .error b =>
    if h : a = b then .isTrue (congrArg Except.error h)
    else .isFalse fun he => h (Except.error.inj he)
  | .ok _, .error _ => .isFalse fun he => Except.noConfusion he
  | .error _, .ok _ => .isFalse fun he => Except.noConfusion he

/-- The comparison used by `sort_with`'s `sorted_by` call:
`d1.partial_cmp(d2).unwrap_or(Ordering::Greater)` is not `Greater` exactly
when both scores are non-NaN and `d1 ≤ d2`. -/
def distLe (d1 d2 : Option ℚ) : Prop :=
  match d1, d2 with
  | some a, some b => a ≤ b
  | _, _ => False

instance : DecidableRel distLe := fun d1 d2 =>
  match d1, d2 with
  | some a, some b => inferInstanceAs (Decidable (a ≤ b))
  | none, none => isFalse fun h => h
  | none, some _ => isFalse fun h => h
  | some _, none => isFalse fun h => h

/-- Model of `sort_with` (src/str/filter.rs): map every candidate to its
metric distance against `input`, stably sort ascending by the score and
strip it. -/
def sort_with {α : Type} (metric : List Char → List Char → Option ℚ)
    (l : List α) (input : List Char) (get_str : α → List Char) : List α :=
  (List.insertionSort (fun p q => distLe p.2 q.2)
    (l.map fun it => (it, metric (get_str it) input))).map Prod.fst

end RustCommon

namespace RustCommon

/-- Claim C1: `CapitalizedString` maintains the zero-copy invariant
(whenever `original_data` is present, joining the current words with the
separator implied by the current case reproduces it byte-for-byte), and
`change_case` clears `original_data` whenever any fragment changed or
whenever there are at least two fragments and the separator implied by the
new case differs from the old one.  The code violates this:
`std::mem::take(&mut self.words)` empties `self.words` before the
`self.words.len() > 1` check, so a pure separator change never clears
`original_data`.  Changing `new("some data", ' ')` to `Case::Snake`
rewrites no fragment (both words are already lowercase), changes the
separator from `' '` to `'_'` with two fragments present, keeps
`original_data`, and leaves the structure with joined words `"some_data"`
while `original_data` is still `"some data"` — the invariant is broken and
rendering returns the stale original text. -/
theorem claim_C1_change_case_keeps_stale_original :
    CapitalizedString.change_case asciiImpl
        (CapitalizedString.new asciiImpl "some data".toList (some ' ')) Case.Snake =
      some { original_data := some "some data".toList,
             words := [.borrowed "some".toList, .borrowed "data".toList],
             case := Case.Snake }
    ∧ CapitalizedString.joined_words
        { original_data := some "some data".toList,
          words := [.borrowed "some".toList, .borrowed "data".toList],
          case := Case.Snake } ≠ "some data".toList
    ∧ CapitalizedString.to_string
        { original_data := some "some data".toList,
          words := [.borrowed "some".toList, .borrowed "data".toList],
          case := Case.Snake } = "some data".toList := by
  refine ⟨by decide, by decide, by decide⟩

/-- Claim C2: `Levenshtein::distance` divides the edit distance by
`max(len(option), len(input))` and is claimed to special-case the empty /
empty division to return `0`.  The code has no such special case: for two
empty strings it computes `0.0 / 0.0`, which is `NaN` (modelled `none`),
not `0`.  On non-degenerate input the normalization works as described:
`distance("kitten", "sitting")` is `3 / 7`. -/
theorem claim_C2_distance_empty_empty_is_nan :
    Levenshtein.distance false [] [] = none
    ∧ Levenshtein.distance false "kitten".toList "sitting".toList = some (3 / 7) := by
  constructor
  · rfl
  · have hd : Levenshtein.dynamic_distance false "kitten".toList "sitting".toList = 3 := by
      decide
    have h1 : byteLen "kitten".toList = 6 := by decide
    have h2 : byteLen "sitting".toList = 7 := by decide
    show (if max (byteLen "kitten".toList) (byteLen "sitting".toList) = 0 then none
      else some ((Levenshtein.dynamic_distance false "kitten".toList "sitting".toList : ℚ) /
        (max (byteLen "kitten".toList) (byteLen "sitting".toList) : ℚ))) = some (3 / 7)
    rw [hd, h1, h2]
    norm_num

/-- Claim C3: all the listed operations are claimed to be total, never
panicking, even on strings whose first character is multi-byte Unicode.
The code violates this: `WordCase::word_not_in_case` and
`WordCase::convert` slice `word[..1]` at *byte* index 1 in the
`Capitalized` branch, which panics when the first character occupies more
than one UTF-8 byte (for example `"ä…"`).  The result is independent of
the case tables, so it is stated for every `CharImpl`. -/
theorem claim_C3_capitalized_panics_on_multibyte :
    ∀ U : CharImpl,
      WordCase.word_not_in_case U .Capitalized ['ä'] = none
      ∧ WordCase.convert U .Capitalized (.borrowed ['ä', 'b']) = none := by
  intro U
  constructor
  · show (if ('ä').utf8Size = 1 then
        some (U.isLowercase 'ä' || List.any [] U.isUppercase) else none) = none
    rw [if_neg (by decide)]
  · show (if (Cow.borrowed ['ä', 'b']).val = [] then some (Cow.borrowed ['ä', 'b'])
      else if ('ä').utf8Size = 1 then
        some (.owned (U.strToUppercase ['ä'] ++ U.strToLowercase ['b'])) else none) = none
    rw [if_neg (by decide), if_neg (by decide)]

/-- Witness for C3 at a concrete instantiation: the ASCII tables agree
with Unicode on the inputs involved, and the panic is reproduced. -/
theorem claim_C3_witness :
    WordCase.word_not_in_case asciiImpl .Capitalized ['ä'] = none
    ∧ WordCase.convert asciiImpl .Capitalized (.borrowed ['ä', 'b']) = none :=
  claim_C3_capitalized_panics_on_multibyte asciiImpl

/-- Claim C4 as stated is false: when splitting without a separator, a
string with no uppercase character yields *no* words at all, not one word
equal to the whole string: `match_indices(char::is_uppercase)` matches
nothing, `open_border_pairs` over an empty iterator yields nothing, and
the `filter_map` collects an empty vector.  Concretely `"hello"` (which
has no uppercase character under ASCII or Unicode) splits into `[]`, not
`["hello"]`. -/
theorem claim_C4_counterexample_no_words :
    ("hello".toList.all fun c => !asciiImpl.isUppercase c) = true
    ∧ Case.split asciiImpl none "hello".toList = []
    ∧ Case.split asciiImpl none "hello".toList ≠ ["hello".toList] := by
  refine ⟨by decide, by decide, by decide⟩

/-- Claim C4 (amended): when splitting without a separator, a string
containing no uppercase character yields the empty word sequence. -/
theorem claim_C4_no_upper_splits_to_nothing :
    ∀ (U : CharImpl) (data : List Char),
      (∀ c ∈ data, U.isUppercase c = false) →
      Case.split U none data = [] := by
  intro U data h
  show Case.split_capitalized U data = []
  have hm : matchIndicesUpper U data = [] := by
    unfold matchIndicesUpper
    rw [List.filter_eq_nil_iff]
    intro i hi
    have hlt : i < data.length := List.mem_range.mp hi
    rw [List.getD_eq_getElem _ _ hlt]
    simp [h _ (List.getElem_mem hlt)]
  unfold Case.split_capitalized
  rw [hm]
  rfl

/-- Witness for the amended C4 at the concrete input `"hello"`. -/
theorem claim_C4_witness :
    Case.split asciiImpl none "hello".toList = [] :=
  claim_C4_no_upper_splits_to_nothing asciiImpl "hello".toList (by decide)

/-- The set of distinct recognized delimiter characters occurring in a
text (what the `HashSet<char>` of `try_from` holds). -/
def foundDelims (text : List Char) : Finset Char :=
  (text.filter fun c => DELIMITERS.contains c).toFinset

/-- Claim C5: `try_from` succeeds with a capitalization-based split when
the text contains no delimiter character, splits on the single delimiter
when exactly one distinct delimiter occurs, and fails with
`MixedSeperators` carrying exactly the offending set when two or more
distinct delimiters occur. -/
theorem claim_C5_try_from_characterization :
    ∀ (U : CharImpl) (text : List Char),
      ((foundDelims text).card = 0 →
        try_from U text = .ok (CapitalizedString.new U text none))
      ∧ (∀ c, foundDelims text = {c} →
        try_from U text = .ok (CapitalizedString.new U text (some c)))
      ∧ (2 ≤ (foundDelims text).card →
        try_from U text = .error ⟨foundDelims text⟩) := by
  intro U text
  have hcard : (foundDelims text).card =
      ((text.filter fun c => DELIMITERS.contains c).dedup).length :=
    List.card_toFinset _
  have hfin : ((text.filter fun c => DELIMITERS.contains c).dedup).toFinset =
      foundDelims text := by
    unfold foundDelims
    ext a
    simp [List.mem_toFinset, List.mem_dedup]
  rcases hD : (text.filter fun c => DELIMITERS.contains c).dedup with _ | ⟨c0, _ | ⟨c1, rest⟩⟩
  · refine ⟨fun _ => ?_, fun c hc => ?_, fun h2 => ?_⟩
    · simp only [try_from, hD]
    · exfalso
      rw [hD] at hcard
      rw [hc] at hcard
      simp at hcard
    · exfalso
      rw [hD, List.length_nil] at hcard
      omega
  · have hsingle : foundDelims text = {c0} := by
      rw [← hfin, hD]
      simp
    refine ⟨fun h0 => ?_, fun c hc => ?_, fun h2 => ?_⟩
    · exfalso
      rw [hD] at hcard
      simp at hcard
      omega
    · have : c = c0 := by
        rw [hsingle] at hc
        exact (Finset.singleton_inj.mp hc.symm)
      subst this
      simp only [try_from, hD]
    · exfalso
      rw [hD] at hcard
      simp at hcard
      omega
  · refine ⟨fun h0 => ?_, fun c hc => ?_, fun h2 => ?_⟩
    · exfalso
      rw [hD] at hcard
      simp at hcard
      omega
    · exfalso
      have : (foundDelims text).card = 1 := by
        rw [hc]
        simp
      rw [hD] at hcard
      simp at hcard
      omega
    · have herr : try_from U text =
          .error ⟨((c0 :: c1 :: rest).toFinset : Finset Char)⟩ := by
        simp only [try_from, hD]
      rw [herr, ← hD, hfin]

/-- Witness for C5: concrete instantiations of all three branches. -/
theorem claim_C5_witness :
    try_from asciiImpl "abc".toList = .ok (CapitalizedString.new asciiImpl "abc".toList none)
    ∧ try_from asciiImpl "a_b".toList =
        .ok (CapitalizedString.new asciiImpl "a_b".toList (some '_'))
    ∧ try_from asciiImpl "a-b_c".toList = .error ⟨foundDelims "a-b_c".toList⟩ :=
  ⟨(claim_C5_try_from_characterization asciiImpl "abc".toList).1 (by decide),
   (claim_C5_try_from_characterization asciiImpl "a_b".toList).2.1 '_' (by decide),
   (claim_C5_try_from_characterization asciiImpl "a-b_c".toList).2.2 (by decide)⟩

/-- Claim C7 as stated is false: `WordCase::convert` checks only for the
empty word; for a nonempty word that is already in the target case it
still rebuilds the string into a freshly allocated `Cow::Owned`, so it
does not return the input unchanged.  Concretely `"a"` is already in
`Lower` case, yet `convert` returns `Cow::Owned("a")`, not the input
`Cow::Borrowed("a")`.  (The membership check that skips conversion lives
in `conver_if_needed`, not in `convert`.) -/
theorem claim_C7_counterexample_convert_allocates :
    WordCase.word_not_in_case asciiImpl .Lower ['a'] = some false
    ∧ WordCase.convert asciiImpl .Lower (.borrowed ['a']) = some (.owned ['a'])
    ∧ Cow.owned ['a'] ≠ Cow.borrowed ['a'] := by
  refine ⟨by decide, by decide, by decide⟩

/-- Claim C7 (amended): `convert` returns the input unchanged exactly for
the empty word; the no-allocation guarantee for a word already in the
target case is provided by `conver_if_needed`, which returns the word and
flag untouched when the target case is absent or already satisfied. -/
theorem claim_C7_unchanged_conditions :
    ∀ (U : CharImpl) (c : WordCase) (w : Cow),
      (w.val = [] → WordCase.convert U c w = some w)
      ∧ (∀ flag, WordCase.word_not_in_case U c w.val = some false →
          WordCase.conver_if_needed U (some c) w flag = some (w, flag))
      ∧ (∀ flag, WordCase.conver_if_needed U none w flag = some (w, flag)) := by
  intro U c w
  refine ⟨fun h => ?_, fun flag h => ?_, fun flag => rfl⟩
  · unfold WordCase.convert
    rw [if_pos h]
  · have hred : WordCase.conver_if_needed U (some c) w flag =
        ((WordCase.word_not_in_case U c w.val).bind fun notIn =>
          if notIn then (WordCase.convert U c w).bind fun w' => some (w', true)
          else some (w, flag)) := rfl
    rw [hred, h]
    rfl

/-- Witness for the amended C7 at concrete inputs. -/
theorem claim_C7_witness :
    WordCase.convert asciiImpl .Lower (.borrowed []) = some (.borrowed [])
    ∧ WordCase.conver_if_needed asciiImpl (some .Lower) (.borrowed ['a']) false =
        some (.borrowed ['a'], false) :=
  ⟨(claim_C7_unchanged_conditions asciiImpl .Lower (.borrowed [])).1 rfl,
   (claim_C7_unchanged_conditions asciiImpl .Lower (.borrowed ['a'])).2.1 false (by decide)⟩

/-- Claim C6: `sort_with` maps each candidate to its metric distance
against the input, stably sorts ascending by that score and strips the
scores; in particular for candidates `["apple", "apply", "ape"]` and input
`"appl"` under case-sensitive Levenshtein, `"apple"` and `"apply"`
(distance 1/5) are ordered before `"ape"` (distance 1/2), and in general
the result is a permutation of the candidates. -/
theorem claim_C6_sort_with_ranking :
    sort_with (Levenshtein.distance false)
        ["apple".toList, "apply".toList, "ape".toList] "appl".toList (fun s => s) =
      ["apple".toList, "apply".toList, "ape".toList]
    ∧ ∀ (α : Type) (metric : List Char → List Char → Option ℚ) (l : List α)
        (input : List Char) (f : α → List Char),
        (sort_with metric l input f).Perm l := by
  constructor
  · show sort_with (Levenshtein.distance false)
        [['a', 'p', 'p', 'l', 'e'], ['a', 'p', 'p', 'l', 'y'], ['a', 'p', 'e']]
        ['a', 'p', 'p', 'l'] (fun s => s) =
      [['a', 'p', 'p', 'l', 'e'], ['a', 'p', 'p', 'l', 'y'], ['a', 'p', 'e']]
    have d1 : Levenshtein.distance false ['a', 'p', 'p', 'l', 'e'] ['a', 'p', 'p', 'l'] =
        some (1 / 5) := by
      have hd : Levenshtein.dynamic_distance false ['a', 'p', 'p', 'l', 'e']
          ['a', 'p', 'p', 'l'] = 1 := by decide
      show (if max (byteLen ['a', 'p', 'p', 'l', 'e']) (byteLen ['a', 'p', 'p', 'l']) = 0
        then none
        else some ((Levenshtein.dynamic_distance false ['a', 'p', 'p', 'l', 'e']
            ['a', 'p', 'p', 'l'] : ℚ) /
          (max (byteLen ['a', 'p', 'p', 'l', 'e']) (byteLen ['a', 'p', 'p', 'l']) : ℚ))) =
        some (1 / 5)
      rw [hd, show byteLen ['a', 'p', 'p', 'l', 'e'] = 5 from by decide,
        show byteLen ['a', 'p', 'p', 'l'] = 4 from by decide]
      norm_num
    have d2 : Levenshtein.distance false ['a', 'p', 'p', 'l', 'y'] ['a', 'p', 'p', 'l'] =
        some (1 / 5) := by
      have hd : Levenshtein.dynamic_distance false ['a', 'p', 'p', 'l', 'y']
          ['a', 'p', 'p', 'l'] = 1 := by decide
      show (if max (byteLen ['a', 'p', 'p', 'l', 'y']) (byteLen ['a', 'p', 'p', 'l']) = 0
        then none
        else some ((Levenshtein.dynamic_distance false ['a', 'p', 'p', 'l', 'y']
            ['a', 'p', 'p', 'l'] : ℚ) /
          (max (byteLen ['a', 'p', 'p', 'l', 'y']) (byteLen ['a', 'p', 'p', 'l']) : ℚ))) =
        some (1 / 5)
      rw [hd, show byteLen ['a', 'p', 'p', 'l', 'y'] = 5 from by decide,
        show byteLen ['a', 'p', 'p', 'l'] = 4 from by decide]
      norm_num
    have d3 : Levenshtein.distance false ['a', 'p', 'e'] ['a', 'p', 'p', 'l'] =
        some (1 / 2) := by
      have hd : Levenshtein.dynamic_distance false ['a', 'p', 'e'] ['a', 'p', 'p', 'l'] = 2 := by
        decide
      show (if max (byteLen ['a', 'p', 'e']) (byteLen ['a', 'p', 'p', 'l']) = 0 then none
        else some ((Levenshtein.dynamic_distance false ['a', 'p', 'e'] ['a', 'p', 'p', 'l'] : ℚ) /
          (max (byteLen ['a', 'p', 'e']) (byteLen ['a', 'p', 'p', 'l']) : ℚ))) = some (1 / 2)
      rw [hd, show byteLen ['a', 'p', 'e'] = 3 from by decide,
        show byteLen ['a', 'p', 'p', 'l'] = 4 from by decide]
      norm_num
    have h12 : distLe (some ((1 : ℚ) / 5)) (some ((1 : ℚ) / 5)) := by
      show (1 : ℚ) / 5 ≤ 1 / 5
      norm_num
    have h13 : distLe (some ((1 : ℚ) / 5)) (some ((1 : ℚ) / 2)) := by
      show (1 : ℚ) / 5 ≤ 1 / 2
      norm_num
    unfold sort_with
    have hmap : ([['a', 'p', 'p', 'l', 'e'], ['a', 'p', 'p', 'l', 'y'], ['a', 'p', 'e']].map
        fun it => (it, Levenshtein.distance false ((fun s => s) it) ['a', 'p', 'p', 'l'])) =
        [(['a', 'p', 'p', 'l', 'e'], some ((1 : ℚ) / 5)),
          (['a', 'p', 'p', 'l', 'y'], some ((1 : ℚ) / 5)),
          (['a', 'p', 'e'], some ((1 : ℚ) / 2))] := by
      simp only [List.map_cons, List.map_nil]
      rw [d1, d2, d3]
    rw [hmap]
    have e2 : List.orderedInsert (fun p q : List Char × Option ℚ => distLe p.2 q.2)
        (['a', 'p', 'p', 'l', 'y'], some ((1 : ℚ) / 5))
        [(['a', 'p', 'e'], some ((1 : ℚ) / 2))] =
        [(['a', 'p', 'p', 'l', 'y'], some ((1 : ℚ) / 5)),
          (['a', 'p', 'e'], some ((1 : ℚ) / 2))] := by
      show (if distLe (some ((1 : ℚ) / 5)) (some ((1 : ℚ) / 2)) then _ else _) = _
      rw [if_pos h13]
    have e1 : List.orderedInsert (fun p q : List Char × Option ℚ => distLe p.2 q.2)
        (['a', 'p', 'p', 'l', 'e'], some ((1 : ℚ) / 5))
        [(['a', 'p', 'p', 'l', 'y'], some ((1 : ℚ) / 5)),
          (['a', 'p', 'e'], some ((1 : ℚ) / 2))] =
        [(['a', 'p', 'p', 'l', 'e'], some ((1 : ℚ) / 5)),
          (['a', 'p', 'p', 'l', 'y'], some ((1 : ℚ) / 5)),
          (['a', 'p', 'e'], some ((1 : ℚ) / 2))] := by
      show (if distLe (some ((1 : ℚ) / 5)) (some ((1 : ℚ) / 5)) then _ else _) = _
      rw [if_pos h12]
    show (List.orderedInsert (fun p q : List Char × Option ℚ => distLe p.2 q.2)
        (['a', 'p', 'p', 'l', 'e'], some ((1 : ℚ) / 5))
        (List.orderedInsert (fun p q : List Char × Option ℚ => distLe p.2 q.2)
          (['a', 'p', 'p', 'l', 'y'], some ((1 : ℚ) / 5))
          (List.orderedInsert (fun p q : List Char × Option ℚ => distLe p.2 q.2)
            (['a', 'p', 'e'], some ((1 : ℚ) / 2)) []))).map Prod.fst =
      [['a', 'p', 'p', 'l', 'e'], ['a', 'p', 'p', 'l', 'y'], ['a', 'p', 'e']]
    rw [show List.orderedInsert (fun p q : List Char × Option ℚ => distLe p.2 q.2)
        (['a', 'p', 'e'], some ((1 : ℚ) / 2)) [] =
        [(['a', 'p', 'e'], some ((1 : ℚ) / 2))] from rfl]
    rw [e2, e1]
    rfl
  · intro α metric l input f
    have hperm := List.perm_insertionSort (fun p q : α × Option ℚ => distLe p.2 q.2)
      (l.map fun it => (it, metric (f it) input))
    have hmap := hperm.map Prod.fst
    unfold sort_with
    refine hmap.trans ?_
    have hm2 : (l.map fun it => (it, metric (f it) input)).map Prod.fst = l := by
      rw [List.map_map]
      exact List.map_id' l
    rw [hm2]

/-- Claim C8: for every text and separator choice, a freshly constructed
`CapitalizedString::new(t, sep)` renders back to `t` verbatim before any
`change_case` call: `new` always stores `t` as `original_data` and
`Cow::from` returns it borrowed. -/
theorem claim_C8_new_round_trip :
    ∀ (U : CharImpl) (data : List Char) (sep : Option Char),
      CapitalizedString.to_string (CapitalizedString.new U data sep) = data
      ∧ CapitalizedString.cowFrom (CapitalizedString.new U data sep) = .borrowed data := by
  intro U data sep
  exact ⟨rfl, rfl⟩

/-- Claim C9: `Levenshtein::distance` is symmetric in its two string
arguments for either value of `ignore_case`. -/
theorem claim_C9_distance_symmetric :
    ∀ (ic : Bool) (a b : List Char),
      Levenshtein.distance ic a b = Levenshtein.distance ic b a := by
  intro ic a b
  unfold Levenshtein.distance
  rw [Levenshtein.dynamic_distance_comm, Nat.max_comm]

/-- Claim C10: the two Levenshtein implementations
(`recursive_distance` and `dynamic_distance`) compute the same edit
distance on every pair of character sequences and either value of
`ignore_case`. -/
theorem claim_C10_recursive_eq_dynamic :
    ∀ (ic : Bool) (a b : List Char),
      Levenshtein.recursive_distance ic a b = Levenshtein.dynamic_distance ic a b := by
  intro ic a b
  exact (Levenshtein.dynamic_distance_eq_recursive ic a b).symm

end RustCommon
